import Mathlib

/-!
Verification of the observable-evaluation engine of qujax (qujax/observable.py).

The engine works on statetensors: complex arrays of rank n with every axis of
dimension 2.  We embed such arrays as functions from the list of axis indices
(a list of elements of Fin 2, one per axis) to the complex entry; the rank is
carried separately and theorems constrain only the entries whose index list has
the right length.  Floating-point arithmetic is modelled by exact real and
complex arithmetic, machine integers by natural numbers.

Embedded operations (in source order of observable.py):
- statetensor_to_single_expectation (inside _statetensor_to_single_expectation_func):
  jnp.tensordot of the gate tensor against the statetensor followed by
  jnp.moveaxis and a full conjugate contraction; tensordot, moveaxis (with its
  order-list insertion algorithm taken from numpy) and transpose are embedded
  faithfully below.
- get_gate_tensor and get_statetensor_to_expectation_func
  (inside get_statetensor_to_expectation_func): Kronecker accumulation of
  single-qubit operators, and the coefficient-weighted sum of the single-term
  evaluators; python zip truncates to the shorter sequence, as does List.zip.
- integers_to_bitstrings / bitstrings_to_integers: the bitstring codec.
- sample_integers / sample_bitstrings: Born-rule sampling; the draw primitive
  jax.random.choice is external library code and is modelled as an abstract
  function of the explicit key, the probability vector, and the draw number.
-/

/-- Statetensors and gate tensors: complex arrays with every axis of dimension 2,
embedded as functions from the list of per-axis indices to the entry. -/
abbrev Ten : Type := List (Fin 2) → ℂ

/-- Square complex matrices of unspecified size, embedded as functions of the
row and column index. -/
abbrev Mat : Type := ℕ → ℕ → ℂ

/-- Big-endian value of a list of binary digits: the row-major flat offset of a
multi-index into an array all of whose axes have dimension 2. -/
def beVal : List (Fin 2) → ℕ
  | [] => 0
  | b :: bs => b.val * 2 ^ bs.length + beVal bs

/-- Big-endian binary digits of the flat offset f in an array of rank n with
axes of dimension 2 (the multi-index that row-major flattening sends to f). -/
def beBits (n f : ℕ) : List (Fin 2) :=
  (List.range n).map (fun j => (⟨f / 2 ^ (n - 1 - j) % 2, Nat.mod_lt _ (by norm_num)⟩ : Fin 2))

/-- Embedding of integers_to_bitstrings (observable.py lines 102-118) at a single
integer with the width given: the source computes
((integers[:, None] and (1 shifted left by jnp.arange(nbits - 1, -1, -1))) > 0).astype(int)
and the element at position j of jnp.arange(nbits - 1, -1, -1) is nbits - 1 - j. -/
def integers_to_bitstrings (v : ℕ) (nbits : ℕ) : List ℕ :=
  (List.range nbits).map (fun j => if 0 < v &&& (1 <<< (nbits - 1 - j)) then 1 else 0)

/-- Embedding of bitstrings_to_integers (observable.py lines 121-133) at a single
bitstring: dot product with convarr = 2 ** jnp.arange(m - 1, -1, -1) where m is
the bitstring length. -/
def bitstrings_to_integers (bits : List ℕ) : ℕ :=
  (List.zipWith (fun b c => b * c) bits
    ((List.range bits.length).map (fun j => 2 ^ (bits.length - 1 - j)))).sum

/-- Spec-side definition (section 4.4): the nbits-length big-endian binary
expansion of v, most significant bit first. -/
def bigEndianBits (v : ℕ) (nbits : ℕ) : List ℕ :=
  (List.range nbits).map (fun j => v / 2 ^ (nbits - 1 - j) % 2)

/-- Spec-side definition (section 4.4): interpretation of a digit list as a
big-endian binary number. -/
def beNat (bits : List ℕ) : ℕ :=
  bits.foldl (fun acc b => 2 * acc + b) 0

/-- Embedding of the width inference of integers_to_bitstrings (observable.py
line 116) for a positive maximum value m: jnp.ceil(jnp.log2(m) + 1e-5) cast to
int, with the float arithmetic modelled exactly over the reals.  The m = 0 case
is not covered by this model: there the source computes the ceiling of minus
infinity (log2 of 0) and the cast to int is degenerate. -/
noncomputable def inferred_nbits (m : ℕ) : ℤ :=
  ⌈Real.logb 2 m + 1 / 100000⌉

/-- Spec-side definition (section 4.4): the minimal width needed to represent the
maximum input value, ceil(log2(max + 1)). -/
noncomputable def spec_min_nbits (m : ℕ) : ℤ :=
  ⌈Real.logb 2 (m + 1)⌉

/-- Embedding of jnp.kron for square matrices where the right factor has side
bsize: entry (i, j) is the product of the left entry at (i / bsize, j / bsize)
and the right entry at (i % bsize, j % bsize). -/
def npKron (bsize : ℕ) (A B : Mat) : Mat :=
  fun i j => A (i / bsize) (j / bsize) * B (i % bsize) (j % bsize)

/-- Embedding of the accumulation loop of get_gate_tensor (observable.py lines
74-76) for single-qubit operators: full_gate_mat = single_gate_arrs[0] followed
by full_gate_mat = jnp.kron(full_gate_mat, single_gate_matrix) over the rest,
every right factor being a 2 by 2 matrix. -/
def kronFold : Mat → List Mat → Mat
  | M, [] => M
  | M, B :: Bs => kronFold (npKron 2 M B) Bs

/-- Embedding of the final reshape of get_gate_tensor (observable.py line 77):
a square matrix of side 2 ^ k reshaped row-major into a tensor of rank 2 k, so
the entry at a rank-2 k index list is the matrix entry whose flat offset is the
big-endian value of the list (row = offset / 2 ^ k, column = offset % 2 ^ k). -/
def reshapeToTensor (k : ℕ) (M : Mat) : Ten :=
  fun idx => M (beVal idx / 2 ^ k) (beVal idx % 2 ^ k)

/-- Embedding of the name resolution of get_gate_tensor (observable.py line 71):
a gate given as a string is looked up in the qujax.gates registry (external to
observable.py, modelled as an abstract map from names to matrices) and a gate
given as an array is used as is.  The per-gate reshape on line 72 is the
identity on the 2 by 2 matrices considered here and is not modelled. -/
def resolveGate (registry : String → Mat) : String ⊕ Mat → Mat
  | Sum.inl s => registry s
  | Sum.inr M => M

/-- Embedding of get_gate_tensor (observable.py lines 60-78) for a nonempty
sequence of single-qubit (2 by 2) gate specifications: resolve each, accumulate
with jnp.kron in sequence order, reshape to rank 2 k.  An empty sequence makes
the source raise an IndexError at single_gate_arrs[0]; that case is given the
junk value of the zero tensor here and is excluded from the theorems. -/
def get_gate_tensor (registry : String → Mat) (gate_seq : List (String ⊕ Mat)) : Ten :=
  match gate_seq.map (resolveGate registry) with
  | [] => fun _ => 0
  | M :: Ms => reshapeToTensor (gate_seq.length) (kronFold M Ms)

/-- Model of the python list insertion list.insert d x used by numpy moveaxis
when building its axis order: x is placed at position d, shifting later
elements; when d is not less than the length, x is appended. -/
def listInsert (d : ℕ) (x : ℕ) : List ℕ → List ℕ
  | [] => [x]
  | y :: ys =>
    match d with
    | 0 => x :: y :: ys
    | Nat.succ e => y :: listInsert e x ys

/-- Insertion of a pair into a list sorted by first component. -/
def insertPair (p : ℕ × ℕ) : List (ℕ × ℕ) → List (ℕ × ℕ)
  | [] => [p]
  | x :: xs => if p.1 ≤ x.1 then p :: x :: xs else x :: insertPair p xs

/-- Model of python sorted on (destination, source) pairs: insertion sort by the
first component (the destinations here are duplicate-free, so sorting by first
component agrees with the lexicographic sort of the source). -/
def sortPairs : List (ℕ × ℕ) → List (ℕ × ℕ)
  | [] => []
  | x :: xs => insertPair x (sortPairs xs)

/-- Fold of the python list insertions order.insert(dest, src) over a pair list,
as performed by numpy moveaxis on its order list. -/
def insertAll (L : List ℕ) (ps : List (ℕ × ℕ)) : List ℕ :=
  ps.foldl (fun ord p => listInsert p.1 p.2 ord) L

/-- Model of the axis order list built by numpy moveaxis with source = range k
and destination = q, for an array of rank n: start from the axes not in the
source, [k, ..., n - 1], and insert source axis s at position d for every pair
(d, s) of sorted(zip(destination, source)). -/
def moveaxisOrder (n k : ℕ) (q : List ℕ) : List ℕ :=
  insertAll ((List.range n).drop k) (sortPairs (q.zip (List.range k)))

/-- Embedding of numpy transpose of a rank-n tensor with the given axis order:
the entry at index list idx is the entry of T at the index list x determined by
x (order m) = idx m, that is, x ax = idx (position of ax in order). -/
def npTranspose (n : ℕ) (order : List ℕ) (T : Ten) : Ten :=
  fun idx => T ((List.range n).map (fun ax => idx.getD (order.indexOf ax) 0))

/-- Embedding of jnp.moveaxis(T, list(range(k)), q) on a rank-n tensor: numpy
transposes with the order list built by moveaxisOrder. -/
def npMoveaxis (n k : ℕ) (q : List ℕ) (T : Ten) : Ten :=
  npTranspose n (moveaxisOrder n k q) T

/-- Positions of the statetensor axes not contracted over by tensordot, in
increasing order: the free axes of the second argument. -/
def freeAxes (n : ℕ) (q : List ℕ) : List ℕ :=
  (List.range n).filter (fun j => decide (j ∉ q))

/-- Embedding of jnp.tensordot(gate_tensor, statetensor,
axes=(list(range(-k, 0)), qubit_inds)) with k = len(qubit_inds), for a gate
tensor of rank 2 k and a statetensor of rank n: the result has rank
k + (n - k); its first k axes are the gate tensor's first k axes and the rest
are the statetensor's uncontracted axes in increasing order, and each entry
sums over the contracted multi-index c the product of the gate entry (front
axes from idx, last k axes at c) and the statetensor entry whose axis q.get j
holds c j and whose other axes hold the trailing part of idx in order. -/
noncomputable def tensordotGate (n : ℕ) (G : Ten) (q : List ℕ) (ψ : Ten) : Ten :=
  fun idx =>
    ∑ c : Fin q.length → Fin 2,
      G (idx.take q.length ++ List.ofFn c) *
      ψ ((List.range n).map (fun i =>
        if i ∈ q then (List.ofFn c).getD (q.indexOf i) 0
        else (idx.drop q.length).getD ((freeAxes n q).indexOf i) 0))

/-- Embedding of statetensor_to_single_expectation (observable.py lines 22-36)
on a rank-n statetensor: tensordot of the gate tensor against the statetensor
at the qubit indices, moveaxis of the front axes back to the qubit positions,
then the real part of the full contraction of the conjugated statetensor
against the new tensor. -/
noncomputable def statetensor_to_single_expectation
    (n : ℕ) (G : Ten) (q : List ℕ) (ψ : Ten) : ℝ :=
  (∑ b : Fin n → Fin 2,
    (starRingEnd ℂ) (ψ (List.ofFn b)) *
      npMoveaxis n q.length q (tensordotGate n G q ψ) (List.ofFn b)).re

/-- Spec-side definition (section 4.2, steps 1 and 2): the gate applied to the
statetensor at the qubit positions q, with no axis bookkeeping: the entry at b
sums over c the gate entry at (b restricted to q, c) times the statetensor
entry at b overwritten on the positions q by c. -/
noncomputable def applyGateAt (n : ℕ) (G : Ten) (q : List ℕ) (ψ : Ten) : Ten :=
  fun idx =>
    ∑ c : Fin q.length → Fin 2,
      G ((q.map (fun i => idx.getD i 0)) ++ List.ofFn c) *
      ψ ((List.range n).map (fun i =>
        if i ∈ q then (List.ofFn c).getD (q.indexOf i) 0 else idx.getD i 0))

/-- Embedding of get_statetensor_to_expectation_func (observable.py lines
41-99): build one single-term evaluator per pair of zip(gate_seq_seq,
qubits_seq_seq), then on a statetensor accumulate out = 0;
out += coeff * f(statetensor) over zip(coefficients, apply_gate_funcs).  Both
zips truncate to the shorter argument exactly as in python. -/
noncomputable def get_statetensor_to_expectation_func (registry : String → Mat)
    (gate_seq_seq : List (List (String ⊕ Mat))) (qubits_seq_seq : List (List ℕ))
    (coefficients : List ℝ) (n : ℕ) : Ten → ℝ :=
  let apply_gate_funcs := (gate_seq_seq.zip qubits_seq_seq).map
    (fun p => fun ψ => statetensor_to_single_expectation n (get_gate_tensor registry p.1) p.2 ψ)
  fun ψ => (coefficients.zip apply_gate_funcs).foldl (fun out p => out + p.1 * p.2 ψ) 0

/-- Embedding of sample_integers (observable.py lines 136-153) for a statetensor
of rank n: sv_probs is the squared absolute value of the flattened statetensor
(flat offset f holds the entry at the big-endian multi-index of f), and the m
draws of jax.random.choice over jnp.arange(2 ^ n) are modelled by an abstract
draw function of the explicitly passed key, the probability vector and the draw
number; no other state enters. -/
noncomputable def sample_integers (choice : ℕ → List ℝ → ℕ → ℕ) (key : ℕ) (n : ℕ)
    (ψ : Ten) (n_samps : ℕ) : List ℕ :=
  let sv_probs := (List.range (2 ^ n)).map (fun f => Complex.abs (ψ (beBits n f)) ^ 2)
  (List.range n_samps).map (fun t => choice key sv_probs t)

/-- Embedding of sample_bitstrings (observable.py lines 156-171): the same draw
followed by integers_to_bitstrings with nbits = statetensor.ndim = n, one row
per sample (the final jnp.squeeze drops axes of extent one without changing any
entry and is not modelled). -/
noncomputable def sample_bitstrings (choice : ℕ → List ℝ → ℕ → ℕ) (key : ℕ) (n : ℕ)
    (ψ : Ten) (n_samps : ℕ) : List (List ℕ) :=
  (sample_integers choice key n ψ n_samps).map (fun v => integers_to_bitstrings v n)

/-- Concrete 2 by 2 identity matrix, used to instantiate theorems at a point. -/
def idMat : Mat := fun i j => if i = j then 1 else 0

/-- Concrete gate registry resolving every name to the identity, used to
instantiate theorems at a point. -/
def reg0 : String → Mat := fun _ => idMat

/-- Concrete rank-2 identity gate tensor, used to instantiate theorems at a point. -/
def idGate1 : Ten := fun idx => if idx = [0, 0] ∨ idx = [1, 1] then 1 else 0

/-- Concrete one-qubit basis statetensor, used to instantiate theorems at a point. -/
def ket0 : Ten := fun idx => if idx = [0] then 1 else 0

/-- Concrete draw function, used to instantiate sampling theorems at a point. -/
def choice0 : ℕ → List ℝ → ℕ → ℕ := fun _ _ _ => 0

/-! Lemmas on the bitstring codec. -/

theorem bit_entry_eq (v e : ℕ) :
    (if 0 < v &&& (1 <<< e) then 1 else 0) = (v.testBit e).toNat := by
  rw [Nat.shiftLeft_eq, one_mul, Nat.and_two_pow]
  cases h : v.testBit e
  · simp
  · simp [Nat.pos_pow_of_pos]

theorem testBit_toNat (v e : ℕ) : (v.testBit e).toNat = v / 2 ^ e % 2 := by
  rcases Nat.mod_two_eq_zero_or_one (v / 2 ^ e) with h | h <;>
    simp [Nat.testBit_to_div_mod, h]

theorem integers_to_bitstrings_eq_testBit (v n : ℕ) :
    integers_to_bitstrings v n = (List.range n).map (fun j => (v.testBit (n - 1 - j)).toNat) := by
  unfold integers_to_bitstrings
  simp only [bit_entry_eq]

theorem integers_to_bitstrings_eq_bigEndian (v n : ℕ) :
    integers_to_bitstrings v n = bigEndianBits v n := by
  rw [integers_to_bitstrings_eq_testBit]
  unfold bigEndianBits
  simp only [testBit_toNat]

theorem integers_to_bitstrings_succ (v n : ℕ) :
    integers_to_bitstrings v (n + 1) = (v.testBit n).toNat :: integers_to_bitstrings v n := by
  rw [integers_to_bitstrings_eq_testBit, integers_to_bitstrings_eq_testBit,
    List.range_succ_eq_map]
  simp only [List.map_cons, List.map_map, Nat.add_sub_cancel, Nat.sub_zero]
  congr 1
  apply List.map_congr_left
  intro j _
  simp only [Function.comp_apply, Nat.succ_eq_add_one]
  congr 2
  omega

theorem bitstrings_to_integers_cons (b : ℕ) (bs : List ℕ) :
    bitstrings_to_integers (b :: bs) = b * 2 ^ bs.length + bitstrings_to_integers bs := by
  unfold bitstrings_to_integers
  simp only [List.length_cons, List.range_succ_eq_map, List.map_cons, List.map_map,
    List.zipWith_cons_cons, List.sum_cons, Nat.add_sub_cancel, Nat.sub_zero]
  have hmap : List.map ((fun j => 2 ^ (bs.length - j)) ∘ Nat.succ) (List.range bs.length)
      = List.map (fun j => 2 ^ (bs.length - 1 - j)) (List.range bs.length) := by
    apply List.map_congr_left
    intro j _
    simp only [Function.comp_apply, Nat.succ_eq_add_one]
    congr 1
    omega
  rw [hmap]

theorem roundtrip_mod (v n : ℕ) :
    bitstrings_to_integers (integers_to_bitstrings v n) = v % 2 ^ n := by
  induction n with
  | zero => simp [integers_to_bitstrings, bitstrings_to_integers, Nat.mod_one]
  | succ n ih =>
    rw [integers_to_bitstrings_succ, bitstrings_to_integers_cons, ih]
    have hlen : (integers_to_bitstrings v n).length = n := by
      simp [integers_to_bitstrings]
    rw [hlen, testBit_toNat, pow_succ, Nat.mod_mul]
    ring

theorem beNat_foldl (a : ℕ) (bs : List ℕ) :
    bs.foldl (fun acc b => 2 * acc + b) a
      = a * 2 ^ bs.length + bs.foldl (fun acc b => 2 * acc + b) 0 := by
  induction bs generalizing a with
  | nil => simp
  | cons b bs ih =>
    simp only [List.foldl_cons, List.length_cons]
    rw [ih (2 * a + b), ih (2 * 0 + b)]
    ring

theorem beNat_cons (b : ℕ) (bs : List ℕ) :
    beNat (b :: bs) = b * 2 ^ bs.length + beNat bs := by
  unfold beNat
  simp only [List.foldl_cons]
  rw [beNat_foldl]
  ring_nf

theorem bitstrings_to_integers_eq_beNat (bits : List ℕ) :
    bitstrings_to_integers bits = beNat bits := by
  induction bits with
  | nil => simp [bitstrings_to_integers, beNat]
  | cons b bs ih => rw [bitstrings_to_integers_cons, beNat_cons, ih]

/-! Lemmas on the inferred bitstring width. -/

theorem logb_two_pow (k : ℕ) : Real.logb 2 ((2 : ℝ) ^ k) = k := by
  rw [Real.logb_pow, Real.logb_self_eq_one (by norm_num)]
  ring

theorem logb_le_log2 (m : ℕ) : Real.logb 2 m ≤ Nat.log2 m + 1 := by
  rcases Nat.eq_zero_or_pos m with h0 | hpos
  · subst h0
    simp [Real.logb]
  · have hm : (m : ℝ) ≤ (2 : ℝ) ^ (Nat.log2 m + 1) := by
      exact_mod_cast (Nat.lt_log2_self (n := m)).le
    calc Real.logb 2 m ≤ Real.logb 2 ((2 : ℝ) ^ (Nat.log2 m + 1)) :=
          Real.logb_le_logb_of_le (by norm_num) (by exact_mod_cast hpos) hm
      _ = Nat.log2 m + 1 := by rw [logb_two_pow]; push_cast; ring

theorem log2_le_logb (m : ℕ) (hm : 1 ≤ m) : (Nat.log2 m : ℝ) ≤ Real.logb 2 m := by
  have h2 : ((2 : ℝ) ^ Nat.log2 m) ≤ m := by
    exact_mod_cast Nat.log2_self_le (by omega)
  calc (Nat.log2 m : ℝ) = Real.logb 2 ((2 : ℝ) ^ Nat.log2 m) := (logb_two_pow _).symm
    _ ≤ Real.logb 2 m := Real.logb_le_logb_of_le (by norm_num) (by positivity) h2

theorem spec_min_nbits_eq (m : ℕ) (hm : 1 ≤ m) :
    spec_min_nbits m = (Nat.log2 m : ℤ) + 1 := by
  unfold spec_min_nbits
  rw [Int.ceil_eq_iff]
  constructor
  · have h2 : ((2 : ℝ) ^ Nat.log2 m) < (m : ℝ) + 1 := by
      have := Nat.log2_self_le (show m ≠ 0 by omega)
      have : ((2 : ℝ) ^ Nat.log2 m) ≤ m := by exact_mod_cast this
      linarith
    have hlt : Real.logb 2 ((2 : ℝ) ^ Nat.log2 m) < Real.logb 2 ((m : ℝ) + 1) :=
      Real.logb_lt_logb (by norm_num) (by positivity) h2
    rw [logb_two_pow] at hlt
    push_cast
    linarith
  · have h2 : ((m : ℝ) + 1) ≤ (2 : ℝ) ^ (Nat.log2 m + 1) := by
      have := Nat.lt_log2_self (n := m)
      have : (m : ℝ) < (2 : ℝ) ^ (Nat.log2 m + 1) := by exact_mod_cast this
      have hz : (1 : ℝ) ≤ (2 : ℝ) ^ (Nat.log2 m + 1) - m := by
        have hnat : m + 1 ≤ 2 ^ (Nat.log2 m + 1) := Nat.lt_log2_self
        have : ((m : ℝ) + 1) ≤ ((2 : ℝ) ^ (Nat.log2 m + 1)) := by exact_mod_cast hnat
        linarith
      linarith
    have h3 : Real.logb 2 ((m : ℝ) + 1) ≤ Real.logb 2 ((2 : ℝ) ^ (Nat.log2 m + 1)) :=
      Real.logb_le_logb_of_le (by norm_num) (by positivity) h2
    rw [logb_two_pow] at h3
    push_cast
    push_cast at h3
    linarith

theorem inferred_nbits_lower (m : ℕ) (hm : 1 ≤ m) :
    (Nat.log2 m : ℤ) + 1 ≤ inferred_nbits m := by
  unfold inferred_nbits
  rw [Int.add_one_le_iff, Int.lt_ceil]
  have := log2_le_logb m hm
  push_cast
  linarith

theorem inferred_nbits_upper (m : ℕ) :
    inferred_nbits m ≤ (Nat.log2 m : ℤ) + 2 := by
  unfold inferred_nbits
  rw [Int.ceil_le]
  have := logb_le_log2 m
  push_cast
  linarith

theorem spec_min_nbits_262143 : spec_min_nbits 262143 = 18 := by
  unfold spec_min_nbits
  have h : ((262143 : ℕ) : ℝ) + 1 = (2 : ℝ) ^ (18 : ℕ) := by norm_num
  rw [h, logb_two_pow]
  norm_num

theorem logb_262143_lower : (18 : ℝ) - 1 / 100000 < Real.logb 2 262143 := by
  have hL : (0.6931471803 : ℝ) < Real.log 2 := Real.log_two_gt_d9
  have hLpos : (0 : ℝ) < Real.log 2 := by linarith
  have hx : (0 : ℝ) < (262143 : ℝ) := by norm_num
  have hfrac : Real.log ((262144 : ℝ) / 262143) ≤ (262144 : ℝ) / 262143 - 1 :=
    Real.log_le_sub_one_of_pos (by norm_num)
  have hdiv : Real.log ((262144 : ℝ) / 262143) = Real.log 262144 - Real.log 262143 :=
    Real.log_div (by norm_num) (by norm_num)
  have h262144 : Real.log (262144 : ℝ) = 18 * Real.log 2 := by
    have : ((262144 : ℝ)) = (2 : ℝ) ^ (18 : ℕ) := by norm_num
    rw [this, Real.log_pow]
    push_cast
    ring
  have hlow : 18 * Real.log 2 - ((262144 : ℝ) / 262143 - 1) ≤ Real.log 262143 := by
    rw [hdiv, h262144] at hfrac
    linarith
  have hkey : (18 - 1 / 100000) * Real.log 2 < Real.log 262143 := by
    have hgap : (262144 : ℝ) / 262143 - 1 < 1 / 100000 * Real.log 2 := by
      rw [div_sub_one (by norm_num)]
      rw [div_lt_iff₀ (by norm_num)]
      linarith
    calc (18 - 1 / 100000) * Real.log 2
        = 18 * Real.log 2 - 1 / 100000 * Real.log 2 := by ring
      _ < 18 * Real.log 2 - ((262144 : ℝ) / 262143 - 1) := by linarith
      _ ≤ Real.log 262143 := hlow
  rw [Real.logb, lt_div_iff₀ hLpos]
  linarith

theorem inferred_nbits_262143 : inferred_nbits 262143 = 19 := by
  unfold inferred_nbits
  rw [Int.ceil_eq_iff]
  have hup : Real.logb 2 (262143 : ℝ) ≤ 18 := by
    have h1 : ((262143 : ℝ)) ≤ (2 : ℝ) ^ (18 : ℕ) := by norm_num
    have h2 : Real.logb 2 (262143 : ℝ) ≤ Real.logb 2 ((2 : ℝ) ^ (18 : ℕ)) :=
      Real.logb_le_logb_of_le (by norm_num) (by norm_num) h1
    rw [logb_two_pow] at h2
    push_cast at h2
    linarith
  have hlo : (18 : ℝ) - 1 / 100000 < Real.logb 2 (262143 : ℝ) := logb_262143_lower
  constructor
  · push_cast
    linarith
  · push_cast
    linarith

/-! Lemmas on big-endian values and the Kronecker accumulation. -/

theorem beVal_append (l1 l2 : List (Fin 2)) :
    beVal (l1 ++ l2) = beVal l1 * 2 ^ l2.length + beVal l2 := by
  induction l1 with
  | nil => simp [beVal]
  | cons b bs ih =>
    show b.val * 2 ^ (bs ++ l2).length + beVal (bs ++ l2)
      = beVal (b :: bs) * 2 ^ l2.length + beVal l2
    rw [ih, List.length_append]
    show _ = (b.val * 2 ^ bs.length + beVal bs) * 2 ^ l2.length + beVal l2
    ring

theorem beVal_lt (l : List (Fin 2)) : beVal l < 2 ^ l.length := by
  induction l with
  | nil => simp [beVal]
  | cons b bs ih =>
    simp only [beVal, List.length_cons, pow_succ]
    have h1 : b.val * 2 ^ bs.length ≤ 2 ^ bs.length := by
      have hb : b.val ≤ 1 := by omega
      calc b.val * 2 ^ bs.length ≤ 1 * 2 ^ bs.length := Nat.mul_le_mul_right _ hb
        _ = 2 ^ bs.length := one_mul _
    exact lt_of_lt_of_le (Nat.add_lt_add_of_le_of_lt h1 ih) (by omega)

theorem beVal_div_mod (l : List (Fin 2)) (i : ℕ) (hi : i < l.length) :
    beVal l / 2 ^ (l.length - 1 - i) % 2 = (l.getD i 0).val := by
  induction l generalizing i with
  | nil => simp at hi
  | cons b bs ih =>
    match i with
    | 0 =>
      simp only [beVal, List.length_cons, List.getD_cons_zero, Nat.add_sub_cancel, Nat.sub_zero]
      have hr : beVal bs < 2 ^ bs.length := beVal_lt bs
      have hb : b.val < 2 := b.isLt
      rw [Nat.add_comm, Nat.add_mul_div_right _ _ (by positivity : (0:ℕ) < 2 ^ bs.length),
        Nat.div_eq_of_lt hr]
      simp [Nat.mod_eq_of_lt hb]
    | Nat.succ j =>
      have hj : j < bs.length := by
        simpa using Nat.lt_of_succ_lt_succ hi
      simp only [beVal, List.length_cons, List.getD_cons_succ]
      have he : bs.length - 1 - j + (j + 1) = bs.length := by omega
      have hsub : bs.length + 1 - 1 - (j + 1) = bs.length - 1 - j := by omega
      rw [hsub]
      have hpow : b.val * 2 ^ bs.length
          = b.val * 2 ^ (j + 1) * 2 ^ (bs.length - 1 - j) := by
        rw [mul_assoc, ← pow_add]
        congr 2
        omega
      rw [hpow, Nat.add_comm,
        Nat.add_mul_div_right _ _ (by positivity : (0:ℕ) < 2 ^ (bs.length - 1 - j))]
      have heven : b.val * 2 ^ (j + 1) = b.val * 2 ^ j * 2 := by ring
      rw [heven, Nat.add_mul_mod_self_right]
      exact ih j hj

theorem ofFn_getD {n : ℕ} (f : Fin n → Fin 2) (i : ℕ) (h : i < n) :
    (List.ofFn f).getD i 0 = f ⟨i, h⟩ := by
  have hlen : i < (List.ofFn f).length := by simpa using h
  rw [List.getD_eq_getElem?_getD, List.getElem?_eq_getElem hlen]
  simp

theorem beVal_ofFn_bit {n : ℕ} (f : Fin n → Fin 2) (i : Fin n) :
    beVal (List.ofFn f) / 2 ^ (n - 1 - i.val) % 2 = (f i).val := by
  have h := beVal_div_mod (List.ofFn f) i.val (by simp)
  simpa [ofFn_getD f i.val i.isLt] using h

theorem kronFold_apply (Bs : List Mat) (M : Mat) (r c : ℕ) :
    kronFold M Bs r c
      = M (r / 2 ^ Bs.length) (c / 2 ^ Bs.length) *
        ∏ i in Finset.range Bs.length,
          (Bs.getD i (fun _ _ => 0)) (r / 2 ^ (Bs.length - 1 - i) % 2)
                                     (c / 2 ^ (Bs.length - 1 - i) % 2) := by
  induction Bs generalizing M r c with
  | nil => simp [kronFold]
  | cons B Bs ih =>
    show kronFold (npKron 2 M B) Bs r c = _
    rw [ih]
    simp only [npKron, List.length_cons, Nat.add_sub_cancel]
    rw [Finset.prod_range_succ']
    simp only [List.getD_cons_zero, List.getD_cons_succ, Nat.sub_zero]
    have hdd : ∀ x : ℕ, x / 2 ^ Bs.length / 2 = x / 2 ^ (Bs.length + 1) := by
      intro x
      rw [Nat.div_div_eq_div_mul, pow_succ]
    rw [hdd r, hdd c]
    have hexp : ∀ i : ℕ, Bs.length - 1 - i = Bs.length - (i + 1) := fun i => by omega
    simp only [hexp]
    ring

theorem get_gate_tensor_apply (registry : String → Mat) (g : String ⊕ Mat)
    (gs : List (String ⊕ Mat)) (a b : Fin (gs.length + 1) → Fin 2) :
    get_gate_tensor registry (g :: gs) (List.ofFn a ++ List.ofFn b)
      = ∏ i : Fin (gs.length + 1),
          resolveGate registry ((g :: gs).get i) (a i).val (b i).val := by
  have hA : beVal (List.ofFn a) < 2 ^ (gs.length + 1) := by
    have h := beVal_lt (List.ofFn a)
    simpa using h
  have hB : beVal (List.ofFn b) < 2 ^ (gs.length + 1) := by
    have h := beVal_lt (List.ofFn b)
    simpa using h
  show reshapeToTensor (g :: gs).length
      (kronFold (resolveGate registry g) (gs.map (resolveGate registry)))
      (List.ofFn a ++ List.ofFn b) = _
  unfold reshapeToTensor
  rw [beVal_append]
  simp only [List.length_ofFn, List.length_cons]
  have hpos : (0 : ℕ) < 2 ^ (gs.length + 1) := by positivity
  have hdiv : (beVal (List.ofFn a) * 2 ^ (gs.length + 1) + beVal (List.ofFn b))
      / 2 ^ (gs.length + 1) = beVal (List.ofFn a) := by
    rw [Nat.add_comm, Nat.add_mul_div_right _ _ hpos, Nat.div_eq_of_lt hB, Nat.zero_add]
  have hmod : (beVal (List.ofFn a) * 2 ^ (gs.length + 1) + beVal (List.ofFn b))
      % 2 ^ (gs.length + 1) = beVal (List.ofFn b) := by
    rw [Nat.add_comm, Nat.add_mul_mod_self_right, Nat.mod_eq_of_lt hB]
  rw [hdiv, hmod, kronFold_apply]
  simp only [List.length_map]
  rw [Fin.prod_univ_succ, Finset.prod_range]
  have hbit0 : ∀ (f : Fin (gs.length + 1) → Fin 2),
      beVal (List.ofFn f) / 2 ^ gs.length = (f 0).val := by
    intro f
    have hlt : beVal (List.ofFn f) < 2 ^ (gs.length + 1) := by
      have h := beVal_lt (List.ofFn f)
      simpa using h
    have hsmall : beVal (List.ofFn f) / 2 ^ gs.length < 2 := by
      apply (Nat.div_lt_iff_lt_mul (by positivity)).mpr
      calc beVal (List.ofFn f) < 2 ^ (gs.length + 1) := hlt
        _ = 2 * 2 ^ gs.length := by ring
    have hb0 := beVal_ofFn_bit f 0
    simp only [Fin.val_zero, Nat.add_sub_cancel, Nat.sub_zero] at hb0
    rw [← hb0, Nat.mod_eq_of_lt hsmall]
  have hbitsucc : ∀ (f : Fin (gs.length + 1) → Fin 2) (i : Fin gs.length),
      beVal (List.ofFn f) / 2 ^ (gs.length - 1 - i.val) % 2 = (f i.succ).val := by
    intro f i
    have hb := beVal_ofFn_bit f i.succ
    simp only [Fin.val_succ] at hb
    have he : gs.length + 1 - 1 - (i.val + 1) = gs.length - 1 - i.val := by omega
    rw [he] at hb
    exact hb
  congr 1
  · rw [hbit0 a, hbit0 b]
    rfl
  · apply Finset.prod_congr rfl
    intro i _
    have hmap : (gs.map (resolveGate registry)).getD i.val (fun _ _ => 0)
        = resolveGate registry (gs.getD i.val g) := by
      have h2 : i.val < (gs.map (resolveGate registry)).length := by
        simp
      rw [List.getD_eq_getElem?_getD, List.getElem?_eq_getElem h2,
        List.getD_eq_getElem?_getD, List.getElem?_eq_getElem i.isLt]
      simp
    have hgs : gs.getD i.val g = gs.get i := by
      rw [List.getD_eq_getElem?_getD, List.getElem?_eq_getElem i.isLt]
      simp
    rw [hmap, hgs, hbitsucc a i, hbitsucc b i]
    rfl

/-! Lemmas on list insertion at a position. -/

theorem listInsert_length (d x : ℕ) (l : List ℕ) :
    (listInsert d x l).length = l.length + 1 := by
  induction l generalizing d with
  | nil => simp [listInsert]
  | cons y ys ih =>
    match d with
    | 0 => simp [listInsert]
    | Nat.succ e => simp [listInsert, ih e]

theorem listInsert_perm (d x : ℕ) (l : List ℕ) :
    List.Perm (listInsert d x l) (x :: l) := by
  induction l generalizing d with
  | nil => simp [listInsert]
  | cons y ys ih =>
    match d with
    | 0 => simp [listInsert]
    | Nat.succ e =>
      show List.Perm (y :: listInsert e x ys) _
      exact (List.Perm.cons y (ih e)).trans (List.Perm.swap x y ys)

theorem listInsert_getD_self (d x : ℕ) (l : List ℕ) (hd : d ≤ l.length) :
    (listInsert d x l).getD d 0 = x := by
  induction l generalizing d with
  | nil =>
    have h0 : d = 0 := by simpa using hd
    subst h0
    rfl
  | cons y ys ih =>
    match d with
    | 0 => rfl
    | Nat.succ e =>
      show (y :: listInsert e x ys).getD (e + 1) 0 = x
      rw [List.getD_cons_succ]
      exact ih e (by simp at hd; omega)

theorem listInsert_getD_lt (d x : ℕ) (l : List ℕ) (pos : ℕ) (hpos : pos < d)
    (hd : d ≤ l.length) :
    (listInsert d x l).getD pos 0 = l.getD pos 0 := by
  induction l generalizing d pos with
  | nil =>
    exact absurd hpos (by simp at hd; omega)
  | cons y ys ih =>
    match d, hpos with
    | Nat.succ e, _ =>
      show (y :: listInsert e x ys).getD pos 0 = _
      match pos with
      | 0 => rfl
      | Nat.succ p =>
        rw [List.getD_cons_succ, List.getD_cons_succ]
        exact ih e p (by omega) (by simp at hd; omega)

theorem listInsert_getD_gt (d x : ℕ) (l : List ℕ) (pos : ℕ) (hpos : d < pos)
    (hd : d ≤ l.length) :
    (listInsert d x l).getD pos 0 = l.getD (pos - 1) 0 := by
  induction l generalizing d pos with
  | nil =>
    have h0 : d = 0 := by simpa using hd
    subst h0
    show ([x] : List ℕ).getD pos 0 = _
    match pos, hpos with
    | Nat.succ p, _ => simp
  | cons y ys ih =>
    match d with
    | 0 =>
      show (x :: y :: ys).getD pos 0 = _
      match pos, hpos with
      | Nat.succ p, _ =>
        rw [List.getD_cons_succ]
        simp
    | Nat.succ e =>
      show (y :: listInsert e x ys).getD pos 0 = _
      match pos, hpos with
      | Nat.succ p, _ =>
        rw [List.getD_cons_succ]
        have hp : e < p := by omega
        rw [ih e p hp (by simpa using hd)]
        have hp1 : 1 ≤ p := by omega
        obtain ⟨p2, rfl⟩ : ∃ p2, p = p2 + 1 := ⟨p - 1, by omega⟩
        simp

/-! Lemmas on the pair sort. -/

theorem insertPair_perm (p : ℕ × ℕ) (l : List (ℕ × ℕ)) :
    List.Perm (insertPair p l) (p :: l) := by
  induction l with
  | nil => simp [insertPair]
  | cons x xs ih =>
    by_cases h : p.1 ≤ x.1
    · simp [insertPair, h]
    · simp only [insertPair, if_neg h]
      exact (List.Perm.cons x ih).trans (List.Perm.swap p x xs)

theorem sortPairs_perm (l : List (ℕ × ℕ)) : List.Perm (sortPairs l) l := by
  induction l with
  | nil => simp [sortPairs]
  | cons x xs ih => exact (insertPair_perm x (sortPairs xs)).trans (List.Perm.cons x ih)

theorem insertPair_pairwise (p : ℕ × ℕ) (l : List (ℕ × ℕ))
    (h : l.Pairwise (fun a b => a.1 ≤ b.1)) :
    (insertPair p l).Pairwise (fun a b => a.1 ≤ b.1) := by
  induction l with
  | nil => simp [insertPair]
  | cons x xs ih =>
    rcases List.pairwise_cons.mp h with ⟨hx, hxs⟩
    by_cases hp : p.1 ≤ x.1
    · simp only [insertPair, if_pos hp]
      refine List.pairwise_cons.mpr ⟨?_, h⟩
      intro b hb
      rcases List.mem_cons.mp hb with rfl | hb2
      · exact hp
      · exact le_trans hp (hx b hb2)
    · simp only [insertPair, if_neg hp]
      refine List.pairwise_cons.mpr ⟨?_, ih hxs⟩
      intro b hb
      rcases List.mem_cons.mp ((insertPair_perm p xs).mem_iff.mp hb) with rfl | hb2
      · omega
      · exact hx b hb2

theorem sortPairs_pairwise (l : List (ℕ × ℕ)) :
    (sortPairs l).Pairwise (fun a b => a.1 ≤ b.1) := by
  induction l with
  | nil => simp [sortPairs]
  | cons x xs ih => exact insertPair_pairwise x _ ih

theorem pairwise_lt_of_le_nodup (l : List (ℕ × ℕ))
    (hle : l.Pairwise (fun a b => a.1 ≤ b.1))
    (hnd : (l.map Prod.fst).Nodup) : l.Pairwise (fun a b => a.1 < b.1) := by
  induction l with
  | nil => simp
  | cons x xs ih =>
    rcases List.pairwise_cons.mp hle with ⟨hx, hxs⟩
    rw [List.map_cons, List.nodup_cons] at hnd
    obtain ⟨hxmem, hnd2⟩ := hnd
    refine List.pairwise_cons.mpr ⟨?_, ih hxs hnd2⟩
    intro b hb
    have h1 : x.1 ≤ b.1 := hx b hb
    have h2 : x.1 ≠ b.1 := by
      intro he
      exact hxmem (he ▸ List.mem_map_of_mem Prod.fst hb)
    omega

theorem sortPairs_pairwise_lt (l : List (ℕ × ℕ)) (hnd : (l.map Prod.fst).Nodup) :
    (sortPairs l).Pairwise (fun a b => a.1 < b.1) := by
  apply pairwise_lt_of_le_nodup _ (sortPairs_pairwise l)
  have hperm : List.Perm ((sortPairs l).map Prod.fst) (l.map Prod.fst) :=
    (sortPairs_perm l).map _
  exact hperm.nodup_iff.mpr hnd

/-! Characterization of the moveaxis order list. -/

theorem countP_lt_interval (l : List ℕ) (hnd : l.Nodup) (d pos : ℕ)
    (hmem : ∀ b ∈ l, d < b) :
    l.countP (fun b => decide (b < pos)) ≤ pos - d - 1 := by
  have hfil : (l.filter (fun b => decide (b < pos))).Nodup := hnd.filter _
  have hcard : (l.filter (fun b => decide (b < pos))).toFinset.card
      ≤ (Finset.Ioo d pos).card := by
    apply Finset.card_le_card
    intro b hb
    rw [List.mem_toFinset, List.mem_filter] at hb
    have h1 := hmem b hb.1
    have h2 : b < pos := by simpa using hb.2
    rw [Finset.mem_Ioo]
    exact ⟨h1, h2⟩
  rw [List.toFinset_card_of_nodup hfil] at hcard
  rw [List.countP_eq_length_filter]
  calc (l.filter (fun b => decide (b < pos))).length
      ≤ (Finset.Ioo d pos).card := hcard
    _ = pos - d - 1 := by rw [Nat.card_Ioo]

theorem insertAll_spec (ps : List (ℕ × ℕ)) (L : List ℕ)
    (hsorted : ps.Pairwise (fun a b => a.1 < b.1))
    (hpos : ∀ j (h : j < ps.length), (ps.get ⟨j, h⟩).1 ≤ L.length + j) :
    (insertAll L ps).length = L.length + ps.length ∧
    (∀ p ∈ ps, (insertAll L ps).getD p.1 0 = p.2) ∧
    (∀ pos, pos ∉ ps.map Prod.fst →
      (insertAll L ps).getD pos 0
        = L.getD (pos - (ps.map Prod.fst).countP (fun e => decide (e < pos))) 0) := by
  induction ps generalizing L with
  | nil =>
    refine ⟨by simp [insertAll], by simp, ?_⟩
    intro pos _
    simp [insertAll]
  | cons p ps ih =>
    obtain ⟨d, s⟩ := p
    have hstep : insertAll L ((d, s) :: ps) = insertAll (listInsert d s L) ps := rfl
    have hd : d ≤ L.length := by
      have h := hpos 0 (by simp)
      simpa using h
    have hL2 : (listInsert d s L).length = L.length + 1 := listInsert_length d s L
    rcases List.pairwise_cons.mp hsorted with ⟨hfirst, hsorted2⟩
    have hpos2 : ∀ j (h : j < ps.length),
        (ps.get ⟨j, h⟩).1 ≤ (listInsert d s L).length + j := by
      intro j h
      have h1 : j + 1 < ((d, s) :: ps).length := by simp; omega
      have h2 := hpos (j + 1) h1
      have hg : ((d, s) :: ps).get ⟨j + 1, h1⟩ = ps.get ⟨j, h⟩ := rfl
      rw [hg] at h2
      omega
    obtain ⟨ihlen, ihmem, ihfree⟩ := ih (listInsert d s L) hsorted2 hpos2
    refine ⟨?_, ?_, ?_⟩
    · rw [hstep, ihlen, hL2]
      simp only [List.length_cons]
      omega
    · intro p hp
      rcases List.mem_cons.mp hp with rfl | hp2
      · rw [hstep]
        have hdnot : (d : ℕ) ∉ ps.map Prod.fst := by
          intro hmem
          rcases List.mem_map.mp hmem with ⟨b, hb, hbe⟩
          have := hfirst b hb
          omega
        rw [ihfree d hdnot]
        have hc0 : (ps.map Prod.fst).countP (fun e => decide (e < d)) = 0 := by
          rw [List.countP_eq_zero]
          intro b hb
          rcases List.mem_map.mp hb with ⟨b2, hb2, hbe⟩
          have := hfirst b2 hb2
          simp only [decide_eq_true_eq]
          omega
        rw [hc0, Nat.sub_zero]
        exact listInsert_getD_self d s L hd
      · rw [hstep]
        exact ihmem p hp2
    · intro pos hposmem
      have hne : pos ≠ d := by
        intro he
        exact hposmem (by simp [he])
      have hnotps : pos ∉ ps.map Prod.fst := by
        intro hmem
        exact hposmem (by simp [hmem])
      rw [hstep, ihfree pos hnotps]
      rcases Nat.lt_or_ge pos d with hlt | hge
      · have hc0 : (ps.map Prod.fst).countP (fun e => decide (e < pos)) = 0 := by
          rw [List.countP_eq_zero]
          intro b hb
          rcases List.mem_map.mp hb with ⟨b2, hb2, hbe⟩
          have := hfirst b2 hb2
          simp only [decide_eq_true_eq]
          omega
        have hcfull : (((d, s) :: ps).map Prod.fst).countP (fun e => decide (e < pos)) = 0 := by
          rw [List.map_cons, List.countP_cons_of_neg, hc0]
          simp only [decide_eq_true_eq]
          omega
        rw [hc0, hcfull]
        simp only [Nat.sub_zero]
        exact listInsert_getD_lt d s L pos hlt hd
      · have hgt : d < pos := by omega
        have hmapnd : (ps.map Prod.fst).Nodup := by
          have h1 : (ps.map Prod.fst).Pairwise (· < ·) :=
            List.Pairwise.map Prod.fst (fun a b h => h) hsorted2
          exact h1.imp (fun h => Nat.ne_of_lt h)
        have hmemmap : ∀ b ∈ ps.map Prod.fst, d < b := by
          intro b hb
          rcases List.mem_map.mp hb with ⟨b2, hb2, hbe⟩
          have := hfirst b2 hb2
          omega
        have hcb : (ps.map Prod.fst).countP (fun e => decide (e < pos)) ≤ pos - d - 1 :=
          countP_lt_interval (ps.map Prod.fst) hmapnd d pos hmemmap
        have hcfull : (((d, s) :: ps).map Prod.fst).countP (fun e => decide (e < pos))
            = (ps.map Prod.fst).countP (fun e => decide (e < pos)) + 1 := by
          rw [List.map_cons, List.countP_cons_of_pos]
          simp only [decide_eq_true_eq]
          omega
        rw [hcfull]
        have hposc : d < pos - (ps.map Prod.fst).countP (fun e => decide (e < pos)) := by
          omega
        rw [listInsert_getD_gt d s L _ hposc hd]
        congr 1

theorem insertAll_perm (ps : List (ℕ × ℕ)) (L : List ℕ) :
    List.Perm (insertAll L ps) (ps.map Prod.snd ++ L) := by
  induction ps generalizing L with
  | nil => simp [insertAll]
  | cons p ps ih =>
    obtain ⟨d, s⟩ := p
    have hstep : insertAll L ((d, s) :: ps) = insertAll (listInsert d s L) ps := rfl
    rw [hstep]
    have h1 : List.Perm (insertAll (listInsert d s L) ps)
        (ps.map Prod.snd ++ listInsert d s L) := ih _
    have h2 : List.Perm (ps.map Prod.snd ++ listInsert d s L)
        (ps.map Prod.snd ++ (s :: L)) :=
      List.Perm.append_left _ (listInsert_perm d s L)
    have h3 : List.Perm (ps.map Prod.snd ++ (s :: L)) (s :: (ps.map Prod.snd ++ L)) :=
      List.perm_middle
    exact (h1.trans h2).trans h3

theorem sorted_gap (ps : List (ℕ × ℕ)) (hs : ps.Pairwise (fun a b => a.1 < b.1))
    (i j : ℕ) (hij : i ≤ j) (hj : j < ps.length) :
    (ps.get ⟨i, Nat.lt_of_le_of_lt hij hj⟩).1 + (j - i) ≤ (ps.get ⟨j, hj⟩).1 := by
  induction j with
  | zero =>
    have h0 : i = 0 := by omega
    subst h0
    simp
  | succ j ihj =>
    rcases Nat.eq_or_lt_of_le hij with heq | hlt
    · subst heq
      simp
    · have hij2 : i ≤ j := by omega
      have hj2 : j < ps.length := by omega
      have h1 := ihj hij2 hj2
      have h2 : (ps.get ⟨j, hj2⟩).1 < (ps.get ⟨j + 1, hj⟩).1 :=
        List.pairwise_iff_get.mp hs ⟨j, hj2⟩ ⟨j + 1, hj⟩ (by simp [Fin.mk_lt_mk])
      omega

theorem sorted_get_le_bound (ps : List (ℕ × ℕ)) (n : ℕ)
    (hs : ps.Pairwise (fun a b => a.1 < b.1))
    (hub : ∀ p ∈ ps, p.1 < n)
    (j : ℕ) (hj : j < ps.length) :
    (ps.get ⟨j, hj⟩).1 ≤ n - ps.length + j := by
  have hlastlt : ps.length - 1 < ps.length := by omega
  have hlast : (ps.get ⟨ps.length - 1, hlastlt⟩).1 < n :=
    hub _ (List.get_mem ps _ hlastlt)
  have hgap : (ps.get ⟨j, hj⟩).1 + (ps.length - 1 - j)
      ≤ (ps.get ⟨ps.length - 1, hlastlt⟩).1 :=
    sorted_gap ps hs j (ps.length - 1) (by omega) hlastlt
  omega

/-! Lemmas on the uncontracted axes. -/

theorem freeAxes_sorted (n : ℕ) (q : List ℕ) : (freeAxes n q).Pairwise (· < ·) :=
  List.Pairwise.sublist (List.filter_sublist _) (List.pairwise_lt_range n)

theorem freeAxes_nodup (n : ℕ) (q : List ℕ) : (freeAxes n q).Nodup :=
  (freeAxes_sorted n q).imp (fun h => Nat.ne_of_lt h)

theorem mem_freeAxes (n : ℕ) (q : List ℕ) (i : ℕ) :
    i ∈ freeAxes n q ↔ i < n ∧ i ∉ q := by
  simp [freeAxes]

theorem filter_mem_perm (n : ℕ) (q : List ℕ) (hnd : q.Nodup)
    (hlt : ∀ i ∈ q, i < n) :
    List.Perm ((List.range n).filter (fun j => decide (j ∈ q))) q := by
  apply (List.perm_ext_iff_of_nodup (List.Nodup.filter _ (List.nodup_range n)) hnd).mpr
  intro a
  constructor
  · intro ha
    rw [List.mem_filter] at ha
    simpa using ha.2
  · intro ha
    rw [List.mem_filter, List.mem_range]
    exact ⟨hlt a ha, by simpa using ha⟩

theorem countP_split (l : List ℕ) (p f : ℕ → Bool) :
    l.countP p = (l.filter f).countP p + (l.filter (fun x => !(f x))).countP p := by
  induction l with
  | nil => simp
  | cons a l ih =>
    by_cases hf : f a <;> by_cases hp : p a <;>
      simp [List.filter_cons, hf, List.countP_cons, hp, ih] <;> omega

theorem freeAxes_length (n : ℕ) (q : List ℕ) (hnd : q.Nodup)
    (hlt : ∀ i ∈ q, i < n) :
    (freeAxes n q).length = n - q.length := by
  have hsplit := countP_split (List.range n) (fun _ => true) (fun j => decide (j ∈ q))
  have htot : (List.range n).countP (fun _ => true) = n := by
    simp [List.countP_eq_length_filter]
  have hq : ((List.range n).filter (fun j => decide (j ∈ q))).countP (fun _ => true)
      = q.length := by
    rw [(filter_mem_perm n q hnd hlt).countP_eq]
    simp [List.countP_eq_length_filter]
  have hfree : ((List.range n).filter (fun x => !(decide (x ∈ q)))).countP (fun _ => true)
      = (freeAxes n q).length := by
    simp only [List.countP_eq_length_filter, List.filter_filter]
    unfold freeAxes
    congr 1
    apply List.filter_congr
    intro a _
    simp
  rw [htot, hq, hfree] at hsplit
  omega

theorem q_length_le (n : ℕ) (q : List ℕ) (hnd : q.Nodup)
    (hlt : ∀ i ∈ q, i < n) : q.length ≤ n := by
  have hsplit := countP_split (List.range n) (fun _ => true) (fun j => decide (j ∈ q))
  have htot : (List.range n).countP (fun _ => true) = n := by
    simp [List.countP_eq_length_filter]
  have hq : ((List.range n).filter (fun j => decide (j ∈ q))).countP (fun _ => true)
      = q.length := by
    rw [(filter_mem_perm n q hnd hlt).countP_eq]
    simp [List.countP_eq_length_filter]
  omega

theorem countP_range_lt (n i : ℕ) (hin : i ≤ n) :
    (List.range n).countP (fun x => decide (x < i)) = i := by
  induction n with
  | zero =>
    have h0 : i = 0 := by omega
    subst h0
    simp
  | succ n ihn =>
    rw [List.range_succ, List.countP_append]
    rcases Nat.lt_or_ge i (n + 1) with hlt | hge
    · rw [ihn (by omega)]
      have hn : ¬ (n < i) := by omega
      simp [List.countP_cons, hn]
    · have hieq : i = n + 1 := by omega
      subst hieq
      have hall : (List.range n).countP (fun x => decide (x < n + 1)) = n := by
        rw [List.countP_eq_length_filter]
        have : (List.range n).filter (fun x => decide (x < n + 1)) = List.range n := by
          apply List.filter_eq_self.mpr
          intro a ha
          rw [List.mem_range] at ha
          simp
          omega
        rw [this, List.length_range]
      rw [hall]
      simp

theorem sortedStrict_countP (l : List ℕ) (hs : l.Pairwise (· < ·)) (t : ℕ)
    (ht : t < l.length) :
    l.countP (fun x => decide (x < l.getD t 0)) = t := by
  induction l generalizing t with
  | nil => simp at ht
  | cons a l ih =>
    rcases List.pairwise_cons.mp hs with ⟨ha, hl⟩
    match t with
    | 0 =>
      simp only [List.getD_cons_zero]
      rw [List.countP_cons_of_neg _ _ (by simp)]
      rw [List.countP_eq_zero]
      intro b hb
      have := ha b hb
      simp only [decide_eq_true_eq]
      omega
    | Nat.succ t2 =>
      simp only [List.getD_cons_succ]
      have ht2 : t2 < l.length := by simpa using ht
      have hmem : l.getD t2 0 ∈ l := by
        rw [List.getD_eq_getElem?_getD, List.getElem?_eq_getElem ht2]
        exact List.getElem_mem ht2
      rw [List.countP_cons, ih hl t2 ht2]
      have hlt2 : a < l.getD t2 0 := ha _ hmem
      rw [List.getD_eq_getElem?_getD] at hlt2
      simp [hlt2]

theorem getD_indexOf (l : List ℕ) (a : ℕ) (h : a ∈ l) :
    l.getD (l.indexOf a) 0 = a := by
  have hlt : l.indexOf a < l.length := List.indexOf_lt_length.mpr h
  rw [List.getD_eq_getElem?_getD, List.getElem?_eq_getElem hlt]
  simp [List.getElem_indexOf]

theorem indexOf_of_getD (l : List ℕ) (hnd : l.Nodup) (pos : ℕ) (hpos : pos < l.length) :
    l.indexOf (l.getD pos 0) = pos := by
  have hval : l.getD pos 0 = l.get ⟨pos, hpos⟩ := by
    rw [List.getD_eq_getElem?_getD, List.getElem?_eq_getElem hpos]
    rfl
  have hmem : l.getD pos 0 ∈ l := by
    rw [hval]
    exact List.get_mem l _ _
  have hlt : l.indexOf (l.getD pos 0) < l.length := List.indexOf_lt_length.mpr hmem
  have hidx : l.get ⟨l.indexOf (l.getD pos 0), hlt⟩ = l.getD pos 0 := List.indexOf_get hlt
  have h2 : l.get ⟨l.indexOf (l.getD pos 0), hlt⟩ = l.get ⟨pos, hpos⟩ := by
    rw [hidx, hval]
  have h3 := (List.Nodup.get_inj_iff hnd).mp h2
  exact congrArg Fin.val h3

theorem getD_mem (l : List ℕ) (t : ℕ) (h : t < l.length) : l.getD t 0 ∈ l := by
  rw [List.getD_eq_getElem?_getD, List.getElem?_eq_getElem h]
  exact List.getElem_mem h

theorem getD_drop_range (n k t : ℕ) (h : k + t < n) :
    ((List.range n).drop k).getD t 0 = k + t := by
  have hlen : t < ((List.range n).drop k).length := by
    simp only [List.length_drop, List.length_range]
    omega
  rw [List.getD_eq_getElem?_getD, List.getElem?_eq_getElem hlen]
  simp [List.getElem_drop, List.getElem_range]

theorem pair_mem_zip_range (q : List ℕ) (ax : ℕ) (hax : ax < q.length) :
    (q.getD ax 0, ax) ∈ q.zip (List.range q.length) := by
  have hlz : ax < (q.zip (List.range q.length)).length := by
    rw [List.length_zip]
    simp only [List.length_range]
    omega
  have hr : ax < (List.range q.length).length := by simpa using hax
  have hget : (q.zip (List.range q.length)).get ⟨ax, hlz⟩
      = (q.get ⟨ax, hax⟩, (List.range q.length).get ⟨ax, hr⟩) := by
    simp [List.get_eq_getElem, List.getElem_zip]
  have hmem := List.get_mem (q.zip (List.range q.length)) ax hlz
  rw [hget] at hmem
  have h1 : q.get ⟨ax, hax⟩ = q.getD ax 0 := by
    rw [List.getD_eq_getElem?_getD, List.getElem?_eq_getElem hax]
    rfl
  have h2 : (List.range q.length).get ⟨ax, hr⟩ = ax := by
    simp [List.get_eq_getElem, List.getElem_range]
  rw [h1, h2] at hmem
  exact hmem

theorem moveaxisOrder_spec (n : ℕ) (q : List ℕ) (hnd : q.Nodup)
    (hlt : ∀ i ∈ q, i < n) :
    (moveaxisOrder n q.length q).length = n ∧
    (moveaxisOrder n q.length q).Nodup ∧
    (∀ ax : ℕ, ax < q.length →
      (moveaxisOrder n q.length q).getD (q.getD ax 0) 0 = ax) ∧
    (∀ t : ℕ, t < n - q.length →
      (moveaxisOrder n q.length q).getD ((freeAxes n q).getD t 0) 0 = q.length + t) := by
  have hk : q.length ≤ n := q_length_le n q hnd hlt
  have s1 : (q.zip (List.range q.length)).length = q.length := by
    rw [List.length_zip]
    simp
  have s2 : (q.zip (List.range q.length)).map Prod.fst = q :=
    List.map_fst_zip q (List.range q.length) (by simp)
  have s3 : (q.zip (List.range q.length)).map Prod.snd = List.range q.length :=
    List.map_snd_zip q (List.range q.length) (by simp)
  have s4 : List.Perm ((sortPairs (q.zip (List.range q.length))).map Prod.fst) q := by
    have h := (sortPairs_perm (q.zip (List.range q.length))).map Prod.fst
    rw [s2] at h
    exact h
  have s5 : (sortPairs (q.zip (List.range q.length))).Pairwise (fun a b => a.1 < b.1) :=
    sortPairs_pairwise_lt _ (by rw [s2]; exact hnd)
  have s6 : (sortPairs (q.zip (List.range q.length))).length = q.length :=
    (sortPairs_perm _).length_eq.trans s1
  have s7 : ∀ p ∈ sortPairs (q.zip (List.range q.length)), p.1 < n := by
    intro p hp
    have hp2 : p.1 ∈ (sortPairs (q.zip (List.range q.length))).map Prod.fst :=
      List.mem_map_of_mem Prod.fst hp
    exact hlt _ (s4.mem_iff.mp hp2)
  have s9 : ((List.range n).drop q.length).length = n - q.length := by
    simp
  have s10 : ∀ j (h : j < (sortPairs (q.zip (List.range q.length))).length),
      ((sortPairs (q.zip (List.range q.length))).get ⟨j, h⟩).1
        ≤ ((List.range n).drop q.length).length + j := by
    intro j h
    have hb := sorted_get_le_bound _ n s5 s7 j h
    omega
  obtain ⟨hlen, hmem, hfree⟩ :=
    insertAll_spec (sortPairs (q.zip (List.range q.length)))
      ((List.range n).drop q.length) s5 s10
  have hlen2 : (moveaxisOrder n q.length q).length = n := by
    unfold moveaxisOrder
    rw [hlen, s9, s6]
    omega
  have hperm : List.Perm (moveaxisOrder n q.length q) (List.range n) := by
    unfold moveaxisOrder
    have h1 := insertAll_perm (sortPairs (q.zip (List.range q.length)))
      ((List.range n).drop q.length)
    have h2 : List.Perm ((sortPairs (q.zip (List.range q.length))).map Prod.snd)
        (List.range q.length) := by
      have h := (sortPairs_perm (q.zip (List.range q.length))).map Prod.snd
      rw [s3] at h
      exact h
    have h3 := h1.trans (h2.append (List.Perm.refl ((List.range n).drop q.length)))
    have h4 : List.range q.length ++ (List.range n).drop q.length = List.range n := by
      have ht : (List.range n).take q.length = List.range q.length := by
        rw [List.take_range, Nat.min_eq_left hk]
      rw [← ht, List.take_append_drop]
    rw [h4] at h3
    exact h3
  have hnd2 : (moveaxisOrder n q.length q).Nodup :=
    hperm.nodup_iff.mpr (List.nodup_range n)
  refine ⟨hlen2, hnd2, ?_, ?_⟩
  · intro ax hax
    have hpair : ((q.getD ax 0, ax) : ℕ × ℕ) ∈ sortPairs (q.zip (List.range q.length)) :=
      (sortPairs_perm _).mem_iff.mpr (pair_mem_zip_range q ax hax)
    exact hmem _ hpair
  · intro t ht
    have hfalen : (freeAxes n q).length = n - q.length := freeAxes_length n q hnd hlt
    have ht2 : t < (freeAxes n q).length := by omega
    have hifree : (freeAxes n q).getD t 0 ∈ freeAxes n q := getD_mem _ t ht2
    rw [mem_freeAxes] at hifree
    obtain ⟨hin, hnotq⟩ := hifree
    have hnotmap : (freeAxes n q).getD t 0
        ∉ (sortPairs (q.zip (List.range q.length))).map Prod.fst := by
      intro hc
      exact hnotq (s4.mem_iff.mp hc)
    unfold moveaxisOrder
    rw [hfree _ hnotmap]
    have hcq : ((sortPairs (q.zip (List.range q.length))).map Prod.fst).countP
        (fun e => decide (e < (freeAxes n q).getD t 0))
        = q.countP (fun e => decide (e < (freeAxes n q).getD t 0)) :=
      s4.countP_eq _
    have hsum : q.countP (fun e => decide (e < (freeAxes n q).getD t 0)) + t
        = (freeAxes n q).getD t 0 := by
      have hsplit := countP_split (List.range n)
        (fun x => decide (x < (freeAxes n q).getD t 0)) (fun j => decide (j ∈ q))
      have hrange : (List.range n).countP
          (fun x => decide (x < (freeAxes n q).getD t 0)) = (freeAxes n q).getD t 0 :=
        countP_range_lt n _ (by omega)
      have hqside : ((List.range n).filter (fun j => decide (j ∈ q))).countP
          (fun x => decide (x < (freeAxes n q).getD t 0))
          = q.countP (fun e => decide (e < (freeAxes n q).getD t 0)) :=
        (filter_mem_perm n q hnd hlt).countP_eq _
      have hfilter_eq : (List.range n).filter (fun x => !(decide (x ∈ q)))
          = freeAxes n q := by
        unfold freeAxes
        apply List.filter_congr
        intro a _
        simp
      have hfreeside : ((List.range n).filter (fun x => !(decide (x ∈ q)))).countP
          (fun x => decide (x < (freeAxes n q).getD t 0)) = t := by
        rw [hfilter_eq]
        exact sortedStrict_countP (freeAxes n q) (freeAxes_sorted n q) t ht2
      rw [hrange, hqside, hfreeside] at hsplit
      omega
    rw [hcq]
    have harg : (freeAxes n q).getD t 0
        - q.countP (fun e => decide (e < (freeAxes n q).getD t 0)) = t := by
      omega
    rw [harg]
    exact getD_drop_range n q.length t (by omega)

theorem moveaxisOrder_indexOf_front (n : ℕ) (q : List ℕ) (hnd : q.Nodup)
    (hlt : ∀ i ∈ q, i < n) (ax : ℕ) (hax : ax < q.length) :
    (moveaxisOrder n q.length q).indexOf ax = q.getD ax 0 := by
  obtain ⟨hlen, hnd2, hF1, _⟩ := moveaxisOrder_spec n q hnd hlt
  have hq : q.getD ax 0 < n := hlt _ (getD_mem q ax hax)
  have h := indexOf_of_getD (moveaxisOrder n q.length q) hnd2 (q.getD ax 0) (by omega)
  rw [hF1 ax hax] at h
  exact h

theorem moveaxisOrder_indexOf_back (n : ℕ) (q : List ℕ) (hnd : q.Nodup)
    (hlt : ∀ i ∈ q, i < n) (t : ℕ) (ht : t < n - q.length) :
    (moveaxisOrder n q.length q).indexOf (q.length + t) = (freeAxes n q).getD t 0 := by
  obtain ⟨hlen, hnd2, _, hF2⟩ := moveaxisOrder_spec n q hnd hlt
  have hfalen : (freeAxes n q).length = n - q.length := freeAxes_length n q hnd hlt
  have hi : (freeAxes n q).getD t 0 < n := by
    have hm := getD_mem (freeAxes n q) t (by omega)
    rw [mem_freeAxes] at hm
    exact hm.1
  have h := indexOf_of_getD (moveaxisOrder n q.length q) hnd2
    ((freeAxes n q).getD t 0) (by omega)
  rw [hF2 t ht] at h
  exact h

theorem map_eq_range_map_getD (q : List ℕ) (f : ℕ → Fin 2) :
    q.map f = (List.range q.length).map (fun j => f (q.getD j 0)) := by
  apply List.ext_getElem
  · simp
  · intro i h1 h2
    simp only [List.getElem_map, List.getElem_range]
    congr 1
    have hq : i < q.length := by simpa using h1
    rw [List.getD_eq_getElem?_getD, List.getElem?_eq_getElem hq]
    rfl

theorem getD_map_fin (l : List ℕ) (f : ℕ → Fin 2) (t : ℕ) (h : t < l.length)
    (d : Fin 2) (d2 : ℕ) : (l.map f).getD t d = f (l.getD t d2) := by
  have h2 : t < (l.map f).length := by simpa using h
  rw [List.getD_eq_getElem?_getD, List.getElem?_eq_getElem h2,
    List.getD_eq_getElem?_getD, List.getElem?_eq_getElem h]
  simp

theorem moveaxis_tensordot_eq_applyGate (n : ℕ) (G : Ten) (q : List ℕ) (ψ : Ten)
    (hnd : q.Nodup) (hlt : ∀ i ∈ q, i < n) (b : Fin n → Fin 2) :
    npMoveaxis n q.length q (tensordotGate n G q ψ) (List.ofFn b)
      = applyGateAt n G q ψ (List.ofFn b) := by
  have hk : q.length ≤ n := q_length_le n q hnd hlt
  have hfalen : (freeAxes n q).length = n - q.length := freeAxes_length n q hnd hlt
  show tensordotGate n G q ψ ((List.range n).map
    (fun ax => (List.ofFn b).getD ((moveaxisOrder n q.length q).indexOf ax) 0)) = _
  unfold tensordotGate applyGateAt
  apply Finset.sum_congr rfl
  intro c _
  have htake : ((List.range n).map
      (fun ax => (List.ofFn b).getD ((moveaxisOrder n q.length q).indexOf ax) 0)).take q.length
      = q.map (fun i => (List.ofFn b).getD i 0) := by
    rw [← List.map_take, List.take_range, Nat.min_eq_left hk]
    rw [map_eq_range_map_getD q (fun i => (List.ofFn b).getD i 0)]
    apply List.map_congr_left
    intro ax hax
    rw [List.mem_range] at hax
    rw [moveaxisOrder_indexOf_front n q hnd hlt ax hax]
  have hdrop : ∀ i : ℕ, i < n → i ∉ q →
      (((List.range n).map
        (fun ax => (List.ofFn b).getD ((moveaxisOrder n q.length q).indexOf ax) 0)).drop
          q.length).getD ((freeAxes n q).indexOf i) 0
      = (List.ofFn b).getD i 0 := by
    intro i hin hiq
    have himem : i ∈ freeAxes n q := (mem_freeAxes n q i).mpr ⟨hin, hiq⟩
    have ht : (freeAxes n q).indexOf i < (freeAxes n q).length :=
      List.indexOf_lt_length.mpr himem
    have ht2 : (freeAxes n q).indexOf i < n - q.length := by omega
    rw [← List.map_drop]
    rw [getD_map_fin _ _ _ (by simp only [List.length_drop, List.length_range]; omega) _ 0]
    rw [getD_drop_range n q.length _ (by omega)]
    rw [moveaxisOrder_indexOf_back n q hnd hlt _ ht2]
    rw [getD_indexOf _ _ himem]
  congr 1
  · congr 1
    rw [htake]
  · congr 1
    apply List.map_congr_left
    intro i hi
    rw [List.mem_range] at hi
    by_cases hiq : i ∈ q
    · simp only [if_pos hiq]
    · simp only [if_neg hiq]
      exact hdrop i hi hiq

/-! Lemmas on the weighted combiner. -/

theorem foldl_add_mul (l : List (ℝ × (Ten → ℝ))) (ψ : Ten) (init : ℝ) :
    l.foldl (fun out p => out + p.1 * p.2 ψ) init
      = init + (l.map (fun p => p.1 * p.2 ψ)).sum := by
  induction l generalizing init with
  | nil => simp
  | cons p l ih =>
    simp only [List.foldl_cons, List.map_cons, List.sum_cons]
    rw [ih]
    ring

theorem zip_map_sum (coeffs : List ℝ) (fs : List (Ten → ℝ)) (ψ : Ten)
    (hlen : coeffs.length = fs.length) :
    ((coeffs.zip fs).map (fun p => p.1 * p.2 ψ)).sum
      = ∑ i in Finset.range coeffs.length,
          coeffs.getD i 0 * (fs.getD i (fun _ => 0)) ψ := by
  induction coeffs generalizing fs with
  | nil => simp
  | cons cHead cTail ih =>
    match fs, hlen with
    | fHead :: fTail, hlen =>
      simp only [List.zip_cons_cons, List.map_cons, List.sum_cons, List.length_cons]
      rw [Finset.sum_range_succ']
      simp only [List.getD_cons_zero, List.getD_cons_succ]
      rw [ih fTail (by simpa using hlen)]
      ring

theorem apply_funcs_getD (registry : String → Mat) (n : ℕ)
    (gss : List (List (String ⊕ Mat))) (qss : List (List ℕ))
    (h1 : gss.length = qss.length) (i : ℕ) (hi : i < gss.length) :
    ((gss.zip qss).map
      (fun p => fun ψ =>
        statetensor_to_single_expectation n (get_gate_tensor registry p.1) p.2 ψ)).getD i
      (fun _ => 0)
    = fun ψ => statetensor_to_single_expectation n
        (get_gate_tensor registry (gss.getD i [])) (qss.getD i []) ψ := by
  have hzlen : (gss.zip qss).length = gss.length := by
    rw [List.length_zip, h1]
    simp
  have hmlen : i < ((gss.zip qss).map
      (fun p => fun ψ =>
        statetensor_to_single_expectation n (get_gate_tensor registry p.1) p.2 ψ)).length := by
    simpa [hzlen] using hi
  have hzi : i < (gss.zip qss).length := by omega
  rw [List.getD_eq_getElem?_getD, List.getElem?_eq_getElem hmlen]
  simp only [List.getElem_map, List.getElem_zip, Option.getD_some]
  have hg : gss[i] = gss.getD i [] := by
    rw [List.getD_eq_getElem?_getD, List.getElem?_eq_getElem hi]
    rfl
  have hq : qss[i] = qss.getD i [] := by
    have hqi : i < qss.length := by omega
    rw [List.getD_eq_getElem?_getD, List.getElem?_eq_getElem hqi]
    rfl
  rw [hg, hq]

theorem combiner_eq_sum (registry : String → Mat)
    (gss : List (List (String ⊕ Mat))) (qss : List (List ℕ)) (coeffs : List ℝ)
    (n : ℕ) (ψ : Ten)
    (h1 : gss.length = qss.length) (h2 : coeffs.length = gss.length) :
    get_statetensor_to_expectation_func registry gss qss coeffs n ψ
      = ∑ i in Finset.range coeffs.length,
          coeffs.getD i 0 *
            statetensor_to_single_expectation n
              (get_gate_tensor registry (gss.getD i [])) (qss.getD i []) ψ := by
  unfold get_statetensor_to_expectation_func
  rw [foldl_add_mul, zero_add]
  rw [zip_map_sum _ _ _ (by simp [List.length_zip, h1, h2])]
  apply Finset.sum_congr rfl
  intro i hi
  rw [Finset.mem_range] at hi
  rw [apply_funcs_getD registry n gss qss h1 i (by omega)]

theorem zip_map_sum_min (coeffs : List ℝ) (fs : List (Ten → ℝ)) (ψ : Ten) :
    ((coeffs.zip fs).map (fun p => p.1 * p.2 ψ)).sum
      = ∑ i in Finset.range (min coeffs.length fs.length),
          coeffs.getD i 0 * (fs.getD i (fun _ => 0)) ψ := by
  induction coeffs generalizing fs with
  | nil => simp
  | cons cHead cTail ih =>
    match fs with
    | [] => simp
    | fHead :: fTail =>
      simp only [List.zip_cons_cons, List.map_cons, List.sum_cons, List.length_cons]
      have hmin : min (cTail.length + 1) (fTail.length + 1)
          = min cTail.length fTail.length + 1 := by omega
      rw [hmin, Finset.sum_range_succ']
      simp only [List.getD_cons_zero, List.getD_cons_succ]
      rw [ih fTail]
      ring

theorem apply_funcs_getD2 (registry : String → Mat) (n : ℕ)
    (gss : List (List (String ⊕ Mat))) (qss : List (List ℕ))
    (i : ℕ) (hgi : i < gss.length) (hqi : i < qss.length) :
    ((gss.zip qss).map
      (fun p => fun ψ =>
        statetensor_to_single_expectation n (get_gate_tensor registry p.1) p.2 ψ)).getD i
      (fun _ => 0)
    = fun ψ => statetensor_to_single_expectation n
        (get_gate_tensor registry (gss.getD i [])) (qss.getD i []) ψ := by
  have hzlen : (gss.zip qss).length = min gss.length qss.length := List.length_zip _ _
  have hmlen : i < ((gss.zip qss).map
      (fun p => fun ψ =>
        statetensor_to_single_expectation n (get_gate_tensor registry p.1) p.2 ψ)).length := by
    rw [List.length_map, hzlen]
    omega
  rw [List.getD_eq_getElem?_getD, List.getElem?_eq_getElem hmlen]
  simp only [List.getElem_map, List.getElem_zip, Option.getD_some]
  have hg : gss[i] = gss.getD i [] := by
    rw [List.getD_eq_getElem?_getD, List.getElem?_eq_getElem hgi]
    rfl
  have hq : qss[i] = qss.getD i [] := by
    rw [List.getD_eq_getElem?_getD, List.getElem?_eq_getElem hqi]
    rfl
  rw [hg, hq]

theorem combiner_eq_sum_min (registry : String → Mat)
    (gss : List (List (String ⊕ Mat))) (qss : List (List ℕ)) (coeffs : List ℝ)
    (n : ℕ) (ψ : Ten) :
    get_statetensor_to_expectation_func registry gss qss coeffs n ψ
      = ∑ i in Finset.range (min coeffs.length (min gss.length qss.length)),
          coeffs.getD i 0 *
            statetensor_to_single_expectation n
              (get_gate_tensor registry (gss.getD i [])) (qss.getD i []) ψ := by
  unfold get_statetensor_to_expectation_func
  rw [foldl_add_mul, zero_add, zip_map_sum_min]
  simp only [List.length_map, List.length_zip]
  apply Finset.sum_congr rfl
  intro i hi
  rw [Finset.mem_range] at hi
  rw [apply_funcs_getD2 registry n gss qss i (by omega) (by omega)]

/-! Claim theorems. -/

/-- C1: for a gate tensor of rank 2 k, a duplicate-free qubit index list of
length k and a statetensor of rank n with every index below n, the single-term
evaluator contracts the gate tensor's last k axes against the statetensor's
axes at the target positions in the given order and realigns the resulting
front axes back into the original qubit positions: the transformed tensor
agrees on every rank-n index with the gate applied directly at those positions
(same rank and shape as the input statetensor), and the returned real scalar is
the real part of the full conjugate inner product of the statetensor with the
transformed tensor. -/
theorem C1_single_term_expectation (n : ℕ) (G : Ten) (q : List ℕ) (ψ : Ten)
    (hnd : q.Nodup) (hlt : ∀ i ∈ q, i < n) :
    (∀ b : Fin n → Fin 2,
      npMoveaxis n q.length q (tensordotGate n G q ψ) (List.ofFn b)
        = applyGateAt n G q ψ (List.ofFn b)) ∧
    statetensor_to_single_expectation n G q ψ
      = (∑ b : Fin n → Fin 2,
          (starRingEnd ℂ) (ψ (List.ofFn b)) * applyGateAt n G q ψ (List.ofFn b)).re := by
  constructor
  · intro b
    exact moveaxis_tensordot_eq_applyGate n G q ψ hnd hlt b
  · unfold statetensor_to_single_expectation
    congr 1
    apply Finset.sum_congr rfl
    intro b _
    rw [moveaxis_tensordot_eq_applyGate n G q ψ hnd hlt b]

theorem C1_witness :
    (∀ b : Fin 1 → Fin 2,
      npMoveaxis 1 ([0] : List ℕ).length [0] (tensordotGate 1 idGate1 [0] ket0)
          (List.ofFn b)
        = applyGateAt 1 idGate1 [0] ket0 (List.ofFn b)) ∧
    statetensor_to_single_expectation 1 idGate1 [0] ket0
      = (∑ b : Fin 1 → Fin 2,
          (starRingEnd ℂ) (ket0 (List.ofFn b)) *
            applyGateAt 1 idGate1 [0] ket0 (List.ofFn b)).re :=
  C1_single_term_expectation 1 idGate1 [0] ket0 (by simp)
    (by intro i hi; simp at hi; omega)

/-- C2: the combiner built by get_statetensor_to_expectation_func applied to a
statetensor equals the positional sum of coefficient times single-term
expectation when the three sequences have equal length; with zero terms the
result is zero, not an error; and for two terms with coefficients a and b the
result is exactly a times the first evaluation plus b times the second. -/
theorem C2_combiner_linearity (registry : String → Mat) (n : ℕ) (ψ : Ten) :
    (∀ (gss : List (List (String ⊕ Mat))) (qss : List (List ℕ)) (coeffs : List ℝ),
      gss.length = qss.length → coeffs.length = gss.length →
      get_statetensor_to_expectation_func registry gss qss coeffs n ψ
        = ∑ i in Finset.range coeffs.length,
            coeffs.getD i 0 *
              statetensor_to_single_expectation n
                (get_gate_tensor registry (gss.getD i [])) (qss.getD i []) ψ) ∧
    get_statetensor_to_expectation_func registry [] [] [] n ψ = 0 ∧
    (∀ (gA gB : List (String ⊕ Mat)) (qA qB : List ℕ) (a b : ℝ),
      get_statetensor_to_expectation_func registry [gA, gB] [qA, qB] [a, b] n ψ
        = a * statetensor_to_single_expectation n (get_gate_tensor registry gA) qA ψ
          + b * statetensor_to_single_expectation n (get_gate_tensor registry gB) qB ψ) := by
  refine ⟨?_, ?_, ?_⟩
  · intro gss qss coeffs h1 h2
    exact combiner_eq_sum registry gss qss coeffs n ψ h1 h2
  · simp [get_statetensor_to_expectation_func]
  · intro gA gB qA qB a b
    rw [combiner_eq_sum registry [gA, gB] [qA, qB] [a, b] n ψ (by simp) (by simp)]
    simp [Finset.sum_range_succ]

theorem C2_witness :
    get_statetensor_to_expectation_func reg0 [[Sum.inr idMat]] [[0]] [(2 : ℝ)] 1 ket0
      = ∑ i in Finset.range ([(2 : ℝ)].length),
          [(2 : ℝ)].getD i 0 *
            statetensor_to_single_expectation 1
              (get_gate_tensor reg0 ([[Sum.inr idMat]].getD i []))
              ([[0]].getD i []) ket0 :=
  (C2_combiner_linearity reg0 1 ket0).1 [[Sum.inr idMat]] [[0]] [(2 : ℝ)] rfl rfl

/-- C3: round trip of the codec: for every n with 1 ≤ n and every v with
v < 2 ^ n, bitstrings_to_integers (integers_to_bitstrings v n) = v. -/
theorem C3_roundtrip (n v : ℕ) (_hn : 1 ≤ n) (hv : v < 2 ^ n) :
    bitstrings_to_integers (integers_to_bitstrings v n) = v := by
  rw [roundtrip_mod, Nat.mod_eq_of_lt hv]

theorem C3_witness : bitstrings_to_integers (integers_to_bitstrings 5 3) = 5 :=
  C3_roundtrip 3 5 (by norm_num) (by norm_num)

/-- C4: integers_to_bitstrings produces the nbits-length big-endian expansion,
most significant bit first, and bitstrings_to_integers interprets a bitstring
as a big-endian binary number; concretely 5 with nbits 4 gives [0, 1, 0, 1] and
[0, 1, 0, 1] gives back 5. -/
theorem C4_big_endian :
    (∀ v nbits : ℕ, integers_to_bitstrings v nbits = bigEndianBits v nbits) ∧
    (∀ bits : List ℕ, bitstrings_to_integers bits = beNat bits) ∧
    integers_to_bitstrings 5 4 = [0, 1, 0, 1] ∧
    bitstrings_to_integers [0, 1, 0, 1] = 5 := by
  refine ⟨integers_to_bitstrings_eq_bigEndian, bitstrings_to_integers_eq_beNat, ?_, ?_⟩
  · decide
  · decide

/-- C5: get_gate_tensor on a nonempty sequence of single-qubit gate
specifications produces the Kronecker product of the resolved matrices in
sequence order reshaped to rank 2 k, with the first k axes the output block and
the last k axes the input block: the entry at the index pair (a, b) is the
product over i of the i-th resolved matrix evaluated at row a i and column b i. -/
theorem C5_gate_tensor (registry : String → Mat) (g : String ⊕ Mat)
    (gs : List (String ⊕ Mat)) (a b : Fin (gs.length + 1) → Fin 2) :
    get_gate_tensor registry (g :: gs) (List.ofFn a ++ List.ofFn b)
      = ∏ i : Fin (gs.length + 1),
          resolveGate registry ((g :: gs).get i) (a i).val (b i).val :=
  get_gate_tensor_apply registry g gs a b

/-- C6: sample_bitstrings returns exactly n_samps bitstrings, each of length n,
each containing only the values 0 and 1, and each obtained by converting the
corresponding sampled outcome index to a bitstring of width n, the qubit
count of the statetensor. -/
theorem C6_sample_shape (choice : ℕ → List ℝ → ℕ → ℕ) (key n : ℕ) (ψ : Ten)
    (n_samps : ℕ) :
    (sample_bitstrings choice key n ψ n_samps).length = n_samps ∧
    (∀ row ∈ sample_bitstrings choice key n ψ n_samps, row.length = n) ∧
    (∀ row ∈ sample_bitstrings choice key n ψ n_samps, ∀ x ∈ row, x = 0 ∨ x = 1) ∧
    sample_bitstrings choice key n ψ n_samps
      = (sample_integers choice key n ψ n_samps).map
          (fun v => integers_to_bitstrings v n) := by
  refine ⟨?_, ?_, ?_, rfl⟩
  · simp [sample_bitstrings, sample_integers]
  · intro row hrow
    simp only [sample_bitstrings, List.mem_map] at hrow
    obtain ⟨v, _, rfl⟩ := hrow
    simp [integers_to_bitstrings]
  · intro row hrow x hx
    simp only [sample_bitstrings, List.mem_map] at hrow
    obtain ⟨v, _, rfl⟩ := hrow
    simp only [integers_to_bitstrings, List.mem_map] at hx
    obtain ⟨j, _, rfl⟩ := hx
    by_cases h : 0 < v &&& (1 <<< (n - 1 - j))
    · right
      simp [h]
    · left
      simp [h]

theorem C6_witness :
    (sample_bitstrings choice0 0 1 ket0 2).length = 2 ∧
    (∀ row ∈ sample_bitstrings choice0 0 1 ket0 2, row.length = 1) :=
  ⟨(C6_sample_shape choice0 0 1 ket0 2).1, (C6_sample_shape choice0 0 1 ket0 2).2.1⟩

/-- C7 counterexample: at maximum value 262143 the code infers width 19
(ceiling of log2(262143) + 1e-5) while the minimal width of the spec is
ceil(log2(262144)) = 18: the inferred width does not equal the minimal width. -/
theorem C7_counterexample : inferred_nbits 262143 ≠ spec_min_nbits 262143 := by
  rw [inferred_nbits_262143, spec_min_nbits_262143]
  norm_num

/-- C7 amended: for a positive maximum value m the inferred width
ceil(log2(m) + 1e-5) is at least the minimal width ceil(log2(m + 1)) and at
most one more; equality can fail, as at m = 262143, and the maximum-0 case is
degenerate (log2 of 0 is minus infinity in the source) rather than 1 bit. -/
theorem C7_inferred_width_bounds (m : ℕ) (hm : 1 ≤ m) :
    spec_min_nbits m ≤ inferred_nbits m ∧ inferred_nbits m ≤ spec_min_nbits m + 1 := by
  rw [spec_min_nbits_eq m hm]
  constructor
  · exact inferred_nbits_lower m hm
  · have h := inferred_nbits_upper m
    omega

theorem C7_witness :
    spec_min_nbits 5 ≤ inferred_nbits 5 ∧ inferred_nbits 5 ≤ spec_min_nbits 5 + 1 :=
  C7_inferred_width_bounds 5 (by norm_num)

/-- C8 amended: get_statetensor_to_expectation_func does not detect mismatched
sequence lengths: the zips silently truncate to the shortest of the three
lengths and the value is computed from the truncated inputs; no error is
raised. -/
theorem C8_truncation (registry : String → Mat)
    (gss : List (List (String ⊕ Mat))) (qss : List (List ℕ)) (coeffs : List ℝ)
    (n : ℕ) (ψ : Ten) :
    get_statetensor_to_expectation_func registry gss qss coeffs n ψ
      = ∑ i in Finset.range (min coeffs.length (min gss.length qss.length)),
          coeffs.getD i 0 *
            statetensor_to_single_expectation n
              (get_gate_tensor registry (gss.getD i [])) (qss.getD i []) ψ :=
  combiner_eq_sum_min registry gss qss coeffs n ψ

/-- C8 counterexample: with two terms and one coefficient, mismatched lengths,
the combiner returns the value computed from the truncated inputs, equal to the
matching one-term call; no error occurs. -/
theorem C8_counterexample :
    get_statetensor_to_expectation_func reg0
        [[Sum.inr idMat], [Sum.inr idMat]] [[0], [0]] [(1 : ℝ)] 1 ket0
      = get_statetensor_to_expectation_func reg0 [[Sum.inr idMat]] [[0]] [(1 : ℝ)] 1 ket0 :=
  rfl

/-- C9: sampling is deterministic in the explicitly passed randomness key:
equal keys, statetensors and sample counts give identical results for
sample_integers and sample_bitstrings; the randomness source is an explicit
argument and no other state enters the embedding. -/
theorem C9_sampling_deterministic (choice : ℕ → List ℝ → ℕ → ℕ)
    (key1 key2 n : ℕ) (ψ1 ψ2 : Ten) (m1 m2 : ℕ)
    (hkey : key1 = key2) (hψ : ψ1 = ψ2) (hm : m1 = m2) :
    sample_integers choice key1 n ψ1 m1 = sample_integers choice key2 n ψ2 m2 ∧
    sample_bitstrings choice key1 n ψ1 m1 = sample_bitstrings choice key2 n ψ2 m2 := by
  subst hkey hψ hm
  exact ⟨rfl, rfl⟩

theorem C9_witness :
    sample_integers choice0 7 1 ket0 3 = sample_integers choice0 7 1 ket0 3 ∧
    sample_bitstrings choice0 7 1 ket0 3 = sample_bitstrings choice0 7 1 ket0 3 :=
  C9_sampling_deterministic choice0 7 7 1 ket0 ket0 3 3 rfl rfl rfl

/-- C10: for every v and every nbits, integers_to_bitstrings raises no error
and returns the nbits-length big-endian expansion of v modulo 2 ^ nbits:
out-of-range values are silently masked to their nbits low-order bits. -/
theorem C10_masking (v nbits : ℕ) :
    integers_to_bitstrings v nbits = bigEndianBits (v % 2 ^ nbits) nbits ∧
    (integers_to_bitstrings v nbits).length = nbits := by
  constructor
  · rw [integers_to_bitstrings_eq_testBit]
    unfold bigEndianBits
    apply List.map_congr_left
    intro j hj
    rw [List.mem_range] at hj
    rw [← testBit_toNat, Nat.testBit_mod_two_pow]
    have hlt : nbits - 1 - j < nbits := by omega
    simp [hlt]
  · simp [integers_to_bitstrings]
